import Mathlib

/-!
Shallow embedding of the tictactrip-justify-api core components:
the text-justification algorithm (src justify/algorithm.ts), the token
store (src/auth/token-store.ts) and the sliding-window rate limiter
(src rate-limit/limiter.ts).  Strings are modelled as `List Char`
(for the justifier, where character-level reasoning is needed) or as
Lean `String` (for map keys); JS `number` widths and timestamps are
modelled as `Int`, character counts as `Nat`.
-/

namespace Justify

/-- Model of the JS regex class `\s` restricted to the ASCII whitespace
characters (space, tab, newline, carriage return, vertical tab, form feed). -/
def isSpaceChar (c : Char) : Bool :=
  c == ' ' || c == '\t' || c == '\n' || c == '\r' || c == Char.ofNat 11 || c == Char.ofNat 12

/-- Model of JS `String.prototype.trim`: drop whitespace from both ends. -/
def trimChars (l : List Char) : List Char :=
  ((l.dropWhile isSpaceChar).reverse.dropWhile isSpaceChar).reverse

/-- Accumulator-based splitter: `tokAux l acc` scans `l`, accumulating the
current word in `acc` (reversed); a whitespace character closes the current
word.  `tokenize l = tokAux l []` yields the maximal runs of non-whitespace
characters of `l`. -/
def tokAux : List Char → List Char → List (List Char)
  | [], acc => if acc.isEmpty then [] else [acc.reverse]
  | c :: cs, acc =>
    if isSpaceChar c then
      if acc.isEmpty then tokAux cs [] else acc.reverse :: tokAux cs []
    else
      tokAux cs (c :: acc)

/-- Maximal runs of non-whitespace characters, in order. -/
def tokenize (l : List Char) : List (List Char) :=
  tokAux l []

/-- Model of `text.trim().split(/\s+/)` (algorithm.ts line 6).  JS `split`
returns `[""]` on the empty string; on a trimmed non-empty string (no leading
or trailing whitespace) it returns exactly the maximal runs of non-whitespace
characters. -/
def wordsOf (text : List Char) : List (List Char) :=
  let t := trimChars text
  if t.isEmpty then [[]] else tokenize t

/-- Model of the loop of `groupWordsIntoLines` (algorithm.ts lines 27-49):
`currentLine` and `currentLength` are the mutable locals, closed lines are
emitted in order. -/
def groupWordsGo (lineWidth : Int) : List (List Char) → List (List Char) → Nat → List (List (List Char))
  | [], currentLine, _ => if currentLine.isEmpty then [] else [currentLine]
  | word :: rest, currentLine, currentLength =>
    let spaceNeeded : Nat := if currentLine.length > 0 then 1 else 0
    let newLength := currentLength + spaceNeeded + word.length
    if (newLength : Int) ≤ lineWidth then
      groupWordsGo lineWidth rest (currentLine ++ [word]) newLength
    else
      if currentLine.length > 0 then
        currentLine :: groupWordsGo lineWidth rest [word] word.length
      else
        groupWordsGo lineWidth rest [word] word.length

/-- Model of `groupWordsIntoLines` (algorithm.ts lines 22-52). -/
def groupWordsIntoLines (words : List (List Char)) (lineWidth : Int) : List (List (List Char)) :=
  groupWordsGo lineWidth words [] 0

/-- Model of JS `' '.repeat(n)`.  JS throws a RangeError on a negative
count; the model clamps at zero, and every reachable call site either passes
a non-negative count or clamps explicitly with `Math.max(0, _)` as the
source does. -/
def repSpaces (n : Int) : List Char :=
  List.replicate n.toNat ' '

/-- Model of `words.join(' ')`: the words separated by single spaces. -/
def joinWords : List (List Char) → List Char
  | [] => []
  | [w] => w
  | w :: rest => w ++ ' ' :: joinWords rest

/-- Model of `justifyLastLine` (algorithm.ts lines 84-89): words joined by
single spaces, right-padded with `Math.max(0, lineWidth - line.length)`
spaces. -/
def justifyLastLine (words : List (List Char)) (lineWidth : Int) : List Char :=
  let line := joinWords words
  line ++ repSpaces (max 0 (lineWidth - (line.length : Int)))

/-- Model of the rendering loop of `justifyLine` (algorithm.ts lines 69-78):
`i` is the loop index; after every word but the last, gap `i` receives
`baseSpaces + (1 if i < extraSpaces else 0)` spaces. -/
def justifyGaps (baseSpaces extraSpaces : Int) : Nat → List (List Char) → List Char
  | _, [] => []
  | _, [w] => w
  | i, w :: rest =>
    w ++ repSpaces (baseSpaces + (if (i : Int) < extraSpaces then 1 else 0)) ++
      justifyGaps baseSpaces extraSpaces (i + 1) rest

/-- Model of `justifyLine` (algorithm.ts lines 54-81).  `Math.floor` of the
JS division is integer floor division `Int.fdiv`; the JS `%` operator is the
truncated remainder `Int.tmod` (the two agree with Euclidean division and
remainder on the non-negative operands arising in reachable calls). -/
def justifyLine (words : List (List Char)) (lineWidth : Int) : List Char :=
  if words.length = 1 then justifyLastLine words lineWidth
  else
    let totalChars : Nat := (words.map List.length).sum
    let totalSpaces : Int := lineWidth - (totalChars : Int)
    let gaps : Int := (words.length : Int) - 1
    let baseSpaces : Int := Int.fdiv totalSpaces gaps
    let extraSpaces : Int := Int.tmod totalSpaces gaps
    justifyGaps baseSpaces extraSpaces 0 words

/-- Model of `lines.map((line, index) => index === lines.length - 1 ?
justifyLastLine(line, w) : justifyLine(line, w))` (algorithm.ts lines
12-15): the index test `index === lines.length - 1` holds exactly for the
final element of the list. -/
def renderLines (lineWidth : Int) : List (List (List Char)) → List (List Char)
  | [] => []
  | [line] => [justifyLastLine line lineWidth]
  | line :: rest => justifyLine line lineWidth :: renderLines lineWidth rest

/-- The list of rendered output lines of `justifyText`. -/
def justifiedLines (text : List Char) (lineWidth : Int) : List (List Char) :=
  renderLines lineWidth (groupWordsIntoLines (wordsOf text) lineWidth)

/-- Model of `justifiedLines.join('\n')`: the lines separated by single
newline characters. -/
def joinLines : List (List Char) → List Char
  | [] => []
  | [l] => l
  | l :: rest => l ++ '\n' :: joinLines rest

/-- Model of `justifyText` (algorithm.ts lines 5-19): split into words,
group into lines, justify every line but the last, join with newlines. -/
def justifyText (text : List Char) (lineWidth : Int) : List Char :=
  joinLines (justifiedLines text lineWidth)

/-- Total natural character count of a list of words. -/
def sumLens (ws : List (List Char)) : Nat :=
  (ws.map List.length).sum

/-- Follows the spec's words (spec 4.1 step 3): base per-gap spacing is
`floor(totalSpaces / gaps)` and the first `totalSpaces mod gaps` gaps,
counted from the left, receive one extra space; gap `j` therefore holds
`base + (1 if j < totalSpaces mod gaps else 0)` spaces. -/
def specGapSpaces (base extra j : Nat) : Nat :=
  base + (if j < extra then 1 else 0)

/-- Follows the spec's words: the words joined left to right, gap `j`
(after the word at index `j`) rendered with `specGapSpaces base extra j`
spaces. -/
def specJoinGaps (base extra : Nat) : Nat → List (List Char) → List Char
  | _, [] => []
  | _, [w] => w
  | j, w :: rest =>
    w ++ List.replicate (specGapSpaces base extra j) ' ' ++ specJoinGaps base extra (j + 1) rest

/-- Follows the spec's words: a justified non-last line of width `width`
with `totalSpaces = width - (sum of word lengths)` distributed over
`gaps = wordCount - 1` gaps. -/
def specJustifiedLine (words : List (List Char)) (width : Nat) : List Char :=
  specJoinGaps ((width - sumLens words) / (words.length - 1))
    ((width - sumLens words) % (words.length - 1)) 0 words

end Justify

namespace Auth

/-- Model of the `StoredToken` interface (token-store.ts lines 9-14);
`Date` values are millisecond timestamps modelled as `Int`. -/
structure StoredToken where
  email : String
  createdAt : Int
  lastUsed : Int
  isValid : Bool
  deriving Repr, DecidableEq

/-- Association-list model of a JS `Map` keyed by strings: `set` on an
existing key updates the entry in place, otherwise appends; this preserves
the insertion-iteration order of JS maps. -/
def mapGet (m : List (String × α)) (k : String) : Option α :=
  (m.find? (fun p => decide (p.1 = k))).map Prod.snd

/-- Model of JS `Map.prototype.set`. -/
def mapSet (m : List (String × α)) (k : String) (v : α) : List (String × α) :=
  if m.any (fun p => decide (p.1 = k)) then
    m.map (fun p => if p.1 = k then (k, v) else p)
  else
    m ++ [(k, v)]

/-- Model of JS `Map.prototype.delete` (value part). -/
def mapDelete (m : List (String × α)) (k : String) : List (String × α) :=
  m.filter (fun p => decide (p.1 ≠ k))

/-- Model of JS `Set.prototype.add` on a string set kept in insertion
order. -/
def setAdd (s : List String) (t : String) : List String :=
  if s.any (fun x => decide (x = t)) then s else s ++ [t]

/-- Model of JS `Set.prototype.delete` (value part). -/
def setDelete (s : List String) (t : String) : List String :=
  s.filter (fun x => decide (x ≠ t))

/-- Model of the `TokenStore` class state together with its constructor
configuration (token-store.ts lines 16-27): the `tokens` map, the
`emailToTokens` index, the TTL in milliseconds and the per-email cap. -/
structure TokenStore where
  tokens : List (String × StoredToken)
  emailToTokens : List (String × List String)
  tokenTTL : Int
  maxTokensPerEmail : Nat
  deriving Repr, DecidableEq

/-- The empty store with the source defaults (24h TTL, 5 tokens/email). -/
def TokenStore.empty : TokenStore :=
  ⟨[], [], 24 * 60 * 60 * 1000, 5⟩

/-- Model of `isExpired` (token-store.ts lines 121-125): the token age
`now - createdAt` strictly exceeds the TTL. -/
def isExpired (ts : TokenStore) (stored : StoredToken) (now : Int) : Bool :=
  decide (now - stored.createdAt > ts.tokenTTL)

/-- Model of `findOldestTokenForEmail` (token-store.ts lines 127-143):
fold over the email's token set with `oldestToken = null`,
`oldestDate = new Date()` (the current time) as initial accumulator,
keeping the first strictly-smaller creation time. -/
def findOldestTokenForEmail (ts : TokenStore) (email : String) (now : Int) : Option String :=
  match mapGet ts.emailToTokens email with
  | none => none
  | some toks =>
    if toks.isEmpty then none
    else
      (toks.foldl
        (fun acc t =>
          match mapGet ts.tokens t with
          | some stored => if stored.createdAt < acc.2 then (some t, stored.createdAt) else acc
          | none => acc)
        ((none : Option String), now)).1

/-- Model of `revoke` (token-store.ts lines 87-105): mark the record
invalid (it stays in the `tokens` map for audit), remove the token from the
email index, and drop the email entry when its set becomes empty; returns
whether a record was found. -/
def revoke (ts : TokenStore) (token : String) : Bool × TokenStore :=
  match mapGet ts.tokens token with
  | none => (false, ts)
  | some stored =>
    let tokens' := mapSet ts.tokens token { stored with isValid := false }
    let index' :=
      match mapGet ts.emailToTokens stored.email with
      | none => ts.emailToTokens
      | some set =>
        let set' := setDelete set token
        if set'.isEmpty then mapDelete ts.emailToTokens stored.email
        else mapSet ts.emailToTokens stored.email set'
    (true, { ts with tokens := tokens', emailToTokens := index' })

/-- Model of `store` (token-store.ts lines 29-63): evict the oldest token
for the email when the cap is reached, insert the fresh record, and add the
token to the email index.  The JS try/catch never fires in the pure model,
so the returned result is always a success. -/
def store (ts : TokenStore) (token email : String) (now : Int) : Except String Unit × TokenStore :=
  let existingTokens := (mapGet ts.emailToTokens email).getD []
  let ts1 :=
    if existingTokens.length ≥ ts.maxTokensPerEmail then
      match findOldestTokenForEmail ts email now with
      | some oldest => (revoke ts oldest).2
      | none => ts
    else ts
  let storedToken : StoredToken := ⟨email, now, now, true⟩
  let tokens' := mapSet ts1.tokens token storedToken
  let index1 :=
    if (mapGet ts1.emailToTokens email).isNone then mapSet ts1.emailToTokens email []
    else ts1.emailToTokens
  let index2 := mapSet index1 email (setAdd ((mapGet index1 email).getD []) token)
  (Except.ok (), { ts1 with tokens := tokens', emailToTokens := index2 })

/-- Model of `retrieve` (token-store.ts lines 65-85): not-found, invalid
and expired failures (the expired branch revokes as a side effect); on
success the record's `lastUsed` is refreshed and the record returned. -/
def retrieve (ts : TokenStore) (token : String) (now : Int) : Except String StoredToken × TokenStore :=
  match mapGet ts.tokens token with
  | none => (Except.error "Token not found", ts)
  | some stored =>
    if !stored.isValid then (Except.error "Token is invalid", ts)
    else if isExpired ts stored now then
      (Except.error "Token has expired", (revoke ts token).2)
    else
      let stored' := { stored with lastUsed := now }
      (Except.ok stored', { ts with tokens := mapSet ts.tokens token stored' })

/-- Model of `revokeAllForEmail` (token-store.ts lines 107-119): fold over
a snapshot of the email's token set, revoking each (each `revoke` only
removes the element being visited, so iterating the snapshot matches JS
set-iteration semantics). -/
def revokeAllForEmail (ts : TokenStore) (email : String) : Nat × TokenStore :=
  match mapGet ts.emailToTokens email with
  | none => (0, ts)
  | some toks =>
    toks.foldl
      (fun acc t =>
        let (changed, ts') := revoke acc.2 t
        (if changed then acc.1 + 1 else acc.1, ts'))
      (0, ts)

/-- The operations of the C6 claim, as an operation language over the
store. -/
inductive TSOp where
  | opStore (token email : String) (now : Int)
  | opRetrieve (token : String) (now : Int)
  | opRevoke (token : String)
  | opRevokeAll (email : String)

/-- Apply one operation, discarding its result value. -/
def applyOp (ts : TokenStore) : TSOp → TokenStore
  | TSOp.opStore token email now => (store ts token email now).2
  | TSOp.opRetrieve token now => (retrieve ts token now).2
  | TSOp.opRevoke token => (revoke ts token).2
  | TSOp.opRevokeAll email => (revokeAllForEmail ts email).2

/-- Run a sequence of operations from the empty registry. -/
def runOps (ops : List TSOp) : TokenStore :=
  ops.foldl applyOp TokenStore.empty

/-- The part of the spec's index invariant that the code maintains: no
email is mapped to an empty token set, and every token in the index has a
record in the token store. -/
def IndexOK (ts : TokenStore) : Prop :=
  (∀ email toks, mapGet ts.emailToTokens email = some toks → toks ≠ []) ∧
  (∀ email toks t, mapGet ts.emailToTokens email = some toks → t ∈ toks →
    ∃ st, mapGet ts.tokens t = some st)

end Auth

namespace RL

/-- Model of the `UsageRecord` interface (limiter.ts lines 57-61). -/
structure UsageRecord where
  wordCount : Int
  timestamp : Int
  resetAt : Int
  deriving Repr, DecidableEq

/-- Model of the `RateLimitResult` interface (limiter.ts lines 63-68). -/
structure RateLimitResult where
  allowed : Bool
  remainingWords : Int
  resetAt : Int
  currentUsage : Int
  deriving Repr, DecidableEq

/-- Failure values of the limiter.  The source formats them into message
strings; the model keeps the data the messages are built from:
`exceeded` is the `checkLimit` failure (daily limit, current usage,
requested words, reset time), `wouldBeExceeded` the unreachable guard
message inside `consumeWords`. -/
inductive RLErr where
  | exceeded (dailyLimit currentUsage requested resetAt : Int)
  | wouldBeExceeded
  deriving Repr, DecidableEq

/-- Model of the `RateLimiter` class state with its constructor
configuration (limiter.ts lines 70-79): the per-token usage map, the daily
word budget and the window size in milliseconds. -/
structure RateLimiter where
  usage : List (String × List UsageRecord)
  dailyLimit : Int
  windowSizeMs : Int
  deriving Repr

/-- The empty limiter with the source defaults (80000 words, 24h). -/
def RateLimiter.empty : RateLimiter :=
  ⟨[], 80000, 24 * 60 * 60 * 1000⟩

/-- A small concrete limiter used to evaluate the limiter theorems: one
token with a single 5-word sample at time 0, budget 10, window 100. -/
def sampleLimiter : RateLimiter :=
  ⟨[("t", [⟨5, 0, 100⟩])], 10, 100⟩

/-- Model of `getValidRecords` (limiter.ts lines 194-200): the records of
the token whose timestamp is strictly after `now - windowSizeMs`. -/
def getValidRecords (rl : RateLimiter) (token : String) (now : Int) : List UsageRecord :=
  ((Auth.mapGet rl.usage token).getD []).filter
    (fun record => decide (record.timestamp > now - rl.windowSizeMs))

/-- Model of `getNextResetTime` (limiter.ts lines 202-213): `now +
windowSizeMs` when there are no records, otherwise the reduce keeping the
record with the strictly smallest timestamp, plus the window size. -/
def getNextResetTime (rl : RateLimiter) (records : List UsageRecord) (now : Int) : Int :=
  match records with
  | [] => now + rl.windowSizeMs
  | first :: rest =>
    (rest.foldl (fun oldest record =>
      if record.timestamp < oldest.timestamp then record else oldest) first).timestamp
      + rl.windowSizeMs

/-- Model of `checkLimit` (limiter.ts lines 81-114): compute the in-window
usage, the remaining budget and the reset time; a not-allowed outcome is
returned as a failure value (the JS catch branch never fires in the pure
model). -/
def checkLimit (rl : RateLimiter) (token : String) (wordCount : Int) (now : Int) :
    Except RLErr RateLimitResult :=
  let records := getValidRecords rl token now
  let currentUsage := (records.map UsageRecord.wordCount).sum
  let remainingWords := max 0 (rl.dailyLimit - currentUsage)
  let resetAt := getNextResetTime rl records now
  let result : RateLimitResult :=
    ⟨decide (currentUsage + wordCount ≤ rl.dailyLimit), remainingWords, resetAt, currentUsage⟩
  if !result.allowed then
    Except.error (RLErr.exceeded rl.dailyLimit currentUsage wordCount resetAt)
  else
    Except.ok result

/-- Model of `recordUsage` (limiter.ts lines 116-140): append a record
stamped `now` with `resetAt = now + windowSizeMs` to the token's list
(creating the list when absent); always succeeds in the pure model. -/
def recordUsage (rl : RateLimiter) (token : String) (wordCount : Int) (now : Int) :
    Except RLErr Unit × RateLimiter :=
  let record : UsageRecord := ⟨wordCount, now, now + rl.windowSizeMs⟩
  let existing := (Auth.mapGet rl.usage token).getD []
  (Except.ok (), { rl with usage := Auth.mapSet rl.usage token (existing ++ [record]) })

/-- Model of `consumeWords` (limiter.ts lines 143-167): check, bail out on
a failed check without recording, otherwise record and return the limit
check recomputed (with word count 0) on the updated state.  The three
`new Date()` calls of one JS invocation are modelled as a single `now`. -/
def consumeWords (rl : RateLimiter) (token : String) (wordCount : Int) (now : Int) :
    Except RLErr RateLimitResult × RateLimiter :=
  match checkLimit rl token wordCount now with
  | Except.error e => (Except.error e, rl)
  | Except.ok checkData =>
    if !checkData.allowed then (Except.error RLErr.wouldBeExceeded, rl)
    else
      let (recordResult, rl2) := recordUsage rl token wordCount now
      match recordResult with
      | Except.error e => (Except.error e, rl2)
      | Except.ok _ =>
        match checkLimit rl2 token 0 now with
        | Except.error e => (Except.error e, rl2)
        | Except.ok updated => (Except.ok updated, rl2)

end RL

namespace Justify

/-- Natural length of a line: word characters plus one space per gap. -/
def lineLen (ws : List (List Char)) : Nat :=
  sumLens ws + ws.length - 1

/-- A sample input used to evaluate the justifier theorems on concrete
data: it wraps to two lines at width 20. -/
def sampleText : List Char :=
  ("Hello world this is a test").data

end Justify

namespace Justify

theorem sumLens_append (a b : List (List Char)) : sumLens (a ++ b) = sumLens a + sumLens b := by
  simp [sumLens]

theorem joinWords_length : ∀ ws : List (List Char), (joinWords ws).length = lineLen ws
  | [] => rfl
  | [w] => by simp [joinWords, lineLen, sumLens]
  | w :: v :: rest => by
    have ih := joinWords_length (v :: rest)
    simp only [joinWords, List.length_append, List.length_cons, ih, lineLen, sumLens,
      List.map_cons, List.sum_cons] at *
    omega

theorem groupWordsGo_join (w : Int) :
    ∀ (ws cur : List (List Char)) (n : Nat), (groupWordsGo w ws cur n).flatten = cur ++ ws := by
  intro ws
  induction ws with
  | nil =>
    intro cur n
    by_cases h : cur.isEmpty
    · simp [groupWordsGo, h, List.isEmpty_iff.mp h]
    · simp [groupWordsGo, h]
  | cons word rest ih =>
    intro cur n
    simp only [groupWordsGo]
    by_cases hfit : ((n + (if cur.length > 0 then 1 else 0) + word.length : Nat) : Int) ≤ w
    · simp only [if_pos hfit, ih]
      simp
    · simp only [if_neg hfit]
      by_cases hcur : cur.length > 0
      · simp [if_pos hcur, List.flatten, ih]
      · have : cur = [] := by
          cases cur with
          | nil => rfl
          | cons a b => simp at hcur
        simp [if_neg hcur, ih, this]

theorem groupWordsGo_sane (w : Int) :
    ∀ (ws cur : List (List Char)) (n : Nat), n = lineLen cur →
      (2 ≤ cur.length → (n : Int) ≤ w) →
      ∀ line ∈ groupWordsGo w ws cur n,
        line ≠ [] ∧ (2 ≤ line.length → (lineLen line : Int) ≤ w) := by
  intro ws
  induction ws with
  | nil =>
    intro cur n hn h2 line hline
    by_cases h : cur.isEmpty
    · simp [groupWordsGo, h] at hline
    · simp only [groupWordsGo, h, if_neg, Bool.false_eq_true, if_false, List.mem_singleton] at hline
      subst hline
      exact ⟨fun hc => by simp [hc] at h, fun hc => hn ▸ h2 hc⟩
  | cons word rest ih =>
    intro cur n hn h2 line hline
    simp only [groupWordsGo] at hline
    by_cases hfit : ((n + (if cur.length > 0 then 1 else 0) + word.length : Nat) : Int) ≤ w
    · rw [if_pos hfit] at hline
      refine ih (cur ++ [word]) _ ?_ ?_ line hline
      · by_cases hcur : cur.length > 0
        · simp only [if_pos hcur] at *
          simp only [lineLen, sumLens, List.map_append, List.sum_append, List.map_cons,
            List.sum_cons, List.map_nil, List.sum_nil, List.length_append, List.length_cons,
            List.length_nil] at hn ⊢
          omega
        · have : cur = [] := by
            cases cur with
            | nil => rfl
            | cons a b => simp at hcur
          subst this
          simp only [lineLen, sumLens] at hn ⊢
          simp at hn
          simp [hn]
      · intro _
        exact hfit
    · rw [if_neg hfit] at hline
      by_cases hcur : cur.length > 0
      · rw [if_pos hcur] at hline
        rcases List.mem_cons.mp hline with h | h
        · subst h
          refine ⟨fun hc => by simp [hc] at hcur, fun hc => hn ▸ h2 hc⟩
        · refine ih [word] _ ?_ ?_ line h
          · simp [lineLen, sumLens]
          · intro hc
            simp at hc
      · rw [if_neg hcur] at hline
        refine ih [word] _ ?_ ?_ line hline
        · simp [lineLen, sumLens]
        · intro hc
          simp at hc

theorem groupWordsIntoLines_join (ws : List (List Char)) (w : Int) :
    (groupWordsIntoLines ws w).flatten = ws :=
  groupWordsGo_join w ws [] 0

theorem groupWordsIntoLines_sane (ws : List (List Char)) (w : Int) :
    ∀ line ∈ groupWordsIntoLines ws w,
      line ≠ [] ∧ (2 ≤ line.length → (lineLen line : Int) ≤ w) :=
  groupWordsGo_sane w ws [] 0 rfl (by intro h; simp at h)

theorem renderLines_length (w : Int) : ∀ L, (renderLines w L).length = L.length
  | [] => rfl
  | [_] => rfl
  | _ :: l2 :: rest => by
    have ih := renderLines_length w (l2 :: rest)
    simp only [renderLines, List.length_cons] at *
    omega

theorem justifyLastLine_length (ws : List (List Char)) (w : Int) :
    (justifyLastLine ws w).length = max w.toNat (joinWords ws).length := by
  simp only [justifyLastLine, repSpaces, List.length_append, List.length_replicate]
  omega

theorem groupWordsGo_nonpos (w : Int) (hw : w ≤ 0) :
    ∀ (ws : List (List Char)) (x : List Char),
      groupWordsGo w ws [x] x.length = [x] :: ws.map (fun y => [y]) := by
  intro ws
  induction ws with
  | nil => intro x; rfl
  | cons y rest ih =>
    intro x
    simp only [groupWordsGo, List.map_cons, List.length_cons, List.length_nil]
    norm_num
    split_ifs with h
    · exfalso
      push_cast at h
      omega
    · rw [ih]

theorem groupWordsIntoLines_nonpos (ws : List (List Char)) (w : Int) (hw : w ≤ 0) :
    groupWordsIntoLines ws w = ws.map (fun y => [y]) := by
  cases ws with
  | nil => rfl
  | cons y rest =>
    simp only [groupWordsIntoLines, groupWordsGo, List.map_cons]
    norm_num
    rw [groupWordsGo_nonpos w hw]

theorem justifyLastLine_nonpos (y : List Char) (w : Int) (hw : w ≤ 0) :
    justifyLastLine [y] w = y := by
  simp only [justifyLastLine, joinWords, repSpaces]
  have : (max 0 (w - ((y.length : Nat) : Int))).toNat = 0 := by omega
  rw [this]
  simp

theorem renderLines_nonpos (w : Int) (hw : w ≤ 0) :
    ∀ ws : List (List Char), renderLines w (ws.map (fun y => [y])) = ws := by
  intro ws
  induction ws with
  | nil => rfl
  | cons y rest ih =>
    cases rest with
    | nil =>
      simp only [List.map_cons, List.map_nil, renderLines]
      rw [justifyLastLine_nonpos y w hw]
    | cons z rest2 =>
      simp only [List.map_cons, renderLines]
      rw [show justifyLine [y] w = justifyLastLine [y] w from by simp [justifyLine],
        justifyLastLine_nonpos y w hw]
      simp only [List.map_cons] at ih
      rw [ih]

end Justify

namespace Justify

/-- C9 (amended): `justifyText` performs no width validation; for a
non-positive width every word lands on a line of its own and is returned
unpadded, the lines joined by newlines. -/
theorem justify_nonpositive_width (text : List Char) (w : Int) (hw : w ≤ 0) :
    justifyText text w = joinLines (wordsOf text) := by
  unfold justifyText justifiedLines
  rw [groupWordsIntoLines_nonpos _ _ hw, renderLines_nonpos w hw]

/-- C9 (witness): the amended statement at text "a b", width 0. -/
theorem justify_nonpositive_width_witness :
    justifyText ("a b").data 0 = joinLines (wordsOf ("a b").data) :=
  justify_nonpositive_width ("a b").data 0 (by decide)

/-- C9 (counterexample): at text "a b" and width 0 the code returns the
plain string "a\nb" instead of failing with an InvalidWidthError; the
embedding of `justifyText` is total and has no error outcome at all. -/
theorem justify_width_zero_counterexample :
    justifyText ("a b").data 0 = ['a', '\n', 'b'] := by decide

theorem justifyText_of_trim_empty (text : List Char) (w : Int) (hw : 0 < w)
    (ht : trimChars text = []) :
    justifyText text w = List.replicate w.toNat ' ' := by
  have hwords : wordsOf text = [[]] := by
    simp [wordsOf, ht]
  have hgroup : groupWordsIntoLines [[]] w = [[[]]] := by
    simp [groupWordsIntoLines, groupWordsGo]
  rw [justifyText, justifiedLines, hwords, hgroup]
  simp only [renderLines, joinLines, justifyLastLine, joinWords, repSpaces, List.length_nil,
    List.nil_append]
  have : max 0 (w - ((0 : Nat) : Int)) = w := by
    simp only [Int.ofNat_zero, sub_zero]
    exact max_eq_right hw.le
  rw [this]

/-- C8 (amended): on input that trims to empty (the empty string or any
whitespace-only string) and any positive width, `justifyText` returns a
single line of exactly `width` spaces: JS `"".split(/\s+/)` yields `[""]`
and the empty word is right-padded to the width. -/
theorem justify_trim_empty (text : List Char) (w : Int) (hw : 0 < w)
    (ht : trimChars text = []) :
    justifyText text w = List.replicate w.toNat ' ' :=
  justifyText_of_trim_empty text w hw ht

/-- C8 (witness): the amended statement at the empty string and width 20. -/
theorem justify_trim_empty_witness :
    justifyText [] 20 = List.replicate (20 : Int).toNat ' ' :=
  justify_trim_empty [] 20 (by decide) rfl

/-- C8 (counterexample): `justifyText "" 20` is a line of 20 spaces, not
the empty string the claim requires. -/
theorem justify_empty_counterexample :
    justifyText [] 20 = List.replicate 20 ' ' ∧ justifyText [] 20 ≠ [] := by
  constructor
  · decide
  · decide

/-- C7 (code evaluated at the failing input): `justifyText "Hello world" 20`
produces the single line "Hello world" followed by 9 padding spaces (the
only line is the last line, so it is left-aligned), not the space-justified
"Hello" + 10 spaces + "world" that the claim and the repository's own test
(src/src/justify/algorithm.test.ts) expect. -/
theorem justify_hello_world_eval :
    justifyText ("Hello world").data 20 = ("Hello world         ").data ∧
      justifyText ("Hello world").data 20 ≠ ("Hello          world").data := by
  constructor
  · decide
  · decide

theorem justifyGaps_length {b e : Int} (hb : 0 ≤ b) (he : 0 ≤ e) :
    ∀ (ws : List (List Char)) (i : Nat), ws ≠ [] →
      (justifyGaps b e i ws).length =
        sumLens ws + (ws.length - 1) * b.toNat +
          (min e.toNat (i + (ws.length - 1)) - min e.toNat i) := by
  intro ws
  induction ws with
  | nil => intro i h; exact absurd rfl h
  | cons w1 rest ih =>
    intro i _
    cases rest with
    | nil =>
      simp [justifyGaps, sumLens]
    | cons w2 rest2 =>
      have ihr := ih (i + 1) (by simp)
      simp only [justifyGaps, List.length_append, List.length_cons, repSpaces,
        List.length_replicate, sumLens, List.map_cons, List.sum_cons,
        Nat.add_sub_cancel] at ihr ⊢
      rw [ihr]
      have hmul : (rest2.length + 1) * b.toNat = rest2.length * b.toNat + b.toNat := by
        ring
      by_cases hie : (i : Int) < e
      · rw [if_pos hie]
        omega
      · rw [if_neg hie]
        omega

theorem justifyGaps_eq_spec {b e : Int} (hb : 0 ≤ b) (he : 0 ≤ e) :
    ∀ (ws : List (List Char)) (i : Nat),
      justifyGaps b e i ws = specJoinGaps b.toNat e.toNat i ws := by
  intro ws
  induction ws with
  | nil => intro i; rfl
  | cons w1 rest ih =>
    intro i
    cases rest with
    | nil => rfl
    | cons w2 rest2 =>
      simp only [justifyGaps, specJoinGaps, repSpaces, specGapSpaces]
      rw [ih (i + 1)]
      have hcount : (b + if (i : Int) < e then 1 else 0).toNat =
          b.toNat + if i < e.toNat then 1 else 0 := by
        by_cases hie : (i : Int) < e
        · rw [if_pos hie, if_pos (by omega)]
          omega
        · rw [if_neg hie, if_neg (by omega)]
          omega
      rw [hcount]

theorem justifyLine_spec {ws : List (List Char)} {w : Int} (h2 : 2 ≤ ws.length)
    (hfit : (lineLen ws : Int) ≤ w) :
    justifyLine ws w = specJustifiedLine ws w.toNat ∧ (justifyLine ws w).length = w.toNat := by
  have hne : ws ≠ [] := by
    intro h
    subst h
    simp at h2
  have hlen1 : ¬ ws.length = 1 := by omega
  have hfit' : (sumLens ws : Int) + ws.length - 1 ≤ w := by
    simp only [lineLen] at hfit
    omega
  have hg0 : (0 : Int) ≤ (ws.length : Int) - 1 := by
    have : (2 : Int) ≤ ws.length := by exact_mod_cast h2
    omega
  have hgpos : (0 : Int) < (ws.length : Int) - 1 := by
    have : (2 : Int) ≤ ws.length := by exact_mod_cast h2
    omega
  have ht0 : (0 : Int) ≤ w - ((sumLens ws : Nat) : Int) := by omega
  have hb' : Int.fdiv (w - ((ws.map List.length).sum : Int)) ((ws.length : Int) - 1) =
      (w - ((sumLens ws : Nat) : Int)) / ((ws.length : Int) - 1) :=
    Int.fdiv_eq_ediv _ hg0
  have he' : Int.tmod (w - ((ws.map List.length).sum : Int)) ((ws.length : Int) - 1) =
      (w - ((sumLens ws : Nat) : Int)) % ((ws.length : Int) - 1) :=
    Int.tmod_eq_emod ht0 hg0
  have hb : (0 : Int) ≤ (w - ((sumLens ws : Nat) : Int)) / ((ws.length : Int) - 1) :=
    Int.ediv_nonneg ht0 hg0
  have he : (0 : Int) ≤ (w - ((sumLens ws : Nat) : Int)) % ((ws.length : Int) - 1) :=
    Int.emod_nonneg _ (by omega)
  have helt : (w - ((sumLens ws : Nat) : Int)) % ((ws.length : Int) - 1) <
      (ws.length : Int) - 1 :=
    Int.emod_lt_of_pos _ hgpos
  have hkey := Int.ediv_add_emod (w - ((sumLens ws : Nat) : Int)) ((ws.length : Int) - 1)
  have hqcast : (((ws.length - 1) *
        ((w - ((sumLens ws : Nat) : Int)) / ((ws.length : Int) - 1)).toNat : Nat) : Int) =
      ((ws.length : Int) - 1) * ((w - ((sumLens ws : Nat) : Int)) / ((ws.length : Int) - 1)) := by
    push_cast [Int.toNat_of_nonneg hb, Nat.cast_sub (show 1 ≤ ws.length by omega)]
    ring
  rw [justifyLine, if_neg hlen1]
  simp only [hb', he']
  constructor
  · rw [justifyGaps_eq_spec hb he ws 0, specJustifiedLine]
    have hdm : (w.toNat - sumLens ws) / (ws.length - 1) =
          ((w - ((sumLens ws : Nat) : Int)) / ((ws.length : Int) - 1)).toNat ∧
        (w.toNat - sumLens ws) % (ws.length - 1) =
          ((w - ((sumLens ws : Nat) : Int)) % ((ws.length : Int) - 1)).toNat := by
      rw [Nat.div_mod_unique (by omega)]
      constructor
      · omega
      · omega
    rw [hdm.1, hdm.2]
  · rw [justifyGaps_length hb he ws 0 hne]
    have hmin0 : min ((w - ((sumLens ws : Nat) : Int)) % ((ws.length : Int) - 1)).toNat 0 = 0 :=
      Nat.min_zero _
    have hmine : min ((w - ((sumLens ws : Nat) : Int)) % ((ws.length : Int) - 1)).toNat
        (0 + (ws.length - 1)) =
        ((w - ((sumLens ws : Nat) : Int)) % ((ws.length : Int) - 1)).toNat := by
      rw [Nat.min_def]
      split_ifs <;> omega
    rw [hmin0, hmine]
    omega

theorem renderLines_get (w : Int) :
    ∀ (L : List (List (List Char))) (i : Nat) (hL : i < L.length)
      (hR : i < (renderLines w L).length),
      (renderLines w L).get ⟨i, hR⟩ =
        if i + 1 = L.length then justifyLastLine (L.get ⟨i, hL⟩) w
        else justifyLine (L.get ⟨i, hL⟩) w := by
  intro L
  induction L with
  | nil =>
    intro i hL
    exact absurd hL (by simp)
  | cons line rest ih =>
    intro i hL hR
    cases rest with
    | nil =>
      have hi : i = 0 := by
        simp only [List.length_cons, List.length_nil] at hL
        omega
      subst hi
      simp [renderLines]
    | cons l2 rest2 =>
      cases i with
      | zero =>
        have hne : ¬ (0 + 1 = (line :: l2 :: rest2).length) := by
          simp only [List.length_cons]
          omega
        rw [if_neg hne]
        rfl
      | succ j =>
        have hL' : j < (l2 :: rest2).length := by
          simp only [List.length_cons] at hL ⊢
          omega
        have hR' : j < (renderLines w (l2 :: rest2)).length := by
          rw [renderLines_length] at hR ⊢
          simp only [List.length_cons] at hR ⊢
          omega
        have hstep : (renderLines w (line :: l2 :: rest2)).get ⟨j + 1, hR⟩ =
            (renderLines w (l2 :: rest2)).get ⟨j, hR'⟩ := rfl
        rw [hstep, ih j hL' hR']
        have hget : (line :: l2 :: rest2).get ⟨j + 1, hL⟩ = (l2 :: rest2).get ⟨j, hL'⟩ := rfl
        rw [hget]
        by_cases h : j + 1 = (l2 :: rest2).length
        · rw [if_pos h, if_pos (by simp only [List.length_cons] at h ⊢; omega)]
        · rw [if_neg h, if_neg (by simp only [List.length_cons] at h ⊢; omega)]

/-- C1: for every text and every width > 0 such that no single word is
longer than the width, every non-last output line of `justifyText` holding
at least two words is rendered with a base gap of floor(totalSpaces/gaps)
spaces and one extra space in each of the first totalSpaces mod gaps gaps
counted from the left, so its rendered length is exactly the width; the
last line and every single-word line are rendered left-aligned, the words
joined by single spaces and right-padded, with length max(width, natural
length). -/
theorem justify_width_invariant (text : List Char) (w : Int) (hw : 0 < w)
    (hsmall : ∀ word ∈ wordsOf text, ((word.length : Nat) : Int) ≤ w) :
    ∀ i (hL : i < (groupWordsIntoLines (wordsOf text) w).length)
      (hR : i < (justifiedLines text w).length),
      (i + 1 < (groupWordsIntoLines (wordsOf text) w).length →
        2 ≤ ((groupWordsIntoLines (wordsOf text) w).get ⟨i, hL⟩).length →
        (justifiedLines text w).get ⟨i, hR⟩ =
          specJustifiedLine ((groupWordsIntoLines (wordsOf text) w).get ⟨i, hL⟩) w.toNat ∧
        ((justifiedLines text w).get ⟨i, hR⟩).length = w.toNat) ∧
      ((i + 1 = (groupWordsIntoLines (wordsOf text) w).length ∨
          ((groupWordsIntoLines (wordsOf text) w).get ⟨i, hL⟩).length = 1) →
        (justifiedLines text w).get ⟨i, hR⟩ =
          joinWords ((groupWordsIntoLines (wordsOf text) w).get ⟨i, hL⟩) ++
            repSpaces (max 0 (w -
              (((joinWords ((groupWordsIntoLines (wordsOf text) w).get ⟨i, hL⟩)).length : Nat) : Int))) ∧
        ((justifiedLines text w).get ⟨i, hR⟩).length =
          max w.toNat (joinWords ((groupWordsIntoLines (wordsOf text) w).get ⟨i, hL⟩)).length) := by
  intro i hL hR
  have hJR : (justifiedLines text w).get ⟨i, hR⟩ =
      if i + 1 = (groupWordsIntoLines (wordsOf text) w).length
      then justifyLastLine ((groupWordsIntoLines (wordsOf text) w).get ⟨i, hL⟩) w
      else justifyLine ((groupWordsIntoLines (wordsOf text) w).get ⟨i, hL⟩) w :=
    renderLines_get w (groupWordsIntoLines (wordsOf text) w) i hL hR
  have hsane := groupWordsIntoLines_sane (wordsOf text) w
    ((groupWordsIntoLines (wordsOf text) w).get ⟨i, hL⟩) (List.get_mem _ i hL)
  constructor
  · intro hlt h2w
    have hne : ¬ (i + 1 = (groupWordsIntoLines (wordsOf text) w).length) := by omega
    rw [hJR, if_neg hne]
    exact justifyLine_spec h2w (hsane.2 h2w)
  · intro hcase
    by_cases hlast : i + 1 = (groupWordsIntoLines (wordsOf text) w).length
    · rw [hJR, if_pos hlast]
      exact ⟨rfl, justifyLastLine_length _ w⟩
    · have h1 : ((groupWordsIntoLines (wordsOf text) w).get ⟨i, hL⟩).length = 1 :=
        hcase.resolve_left hlast
      rw [hJR, if_neg hlast, justifyLine, if_pos h1]
      exact ⟨rfl, justifyLastLine_length _ w⟩

/-- C1 (witness): the width invariant instantiated at the sample text,
width 20 and line index 0 (a non-last two-word-or-more line). -/
theorem justify_width_invariant_witness :
    (0 + 1 < (groupWordsIntoLines (wordsOf sampleText) 20).length →
      2 ≤ ((groupWordsIntoLines (wordsOf sampleText) 20).get ⟨0, by decide⟩).length →
      (justifiedLines sampleText 20).get ⟨0, by decide⟩ =
        specJustifiedLine ((groupWordsIntoLines (wordsOf sampleText) 20).get ⟨0, by decide⟩)
          (20 : Int).toNat ∧
      ((justifiedLines sampleText 20).get ⟨0, by decide⟩).length = (20 : Int).toNat) ∧
    ((0 + 1 = (groupWordsIntoLines (wordsOf sampleText) 20).length ∨
        ((groupWordsIntoLines (wordsOf sampleText) 20).get ⟨0, by decide⟩).length = 1) →
      (justifiedLines sampleText 20).get ⟨0, by decide⟩ =
        joinWords ((groupWordsIntoLines (wordsOf sampleText) 20).get ⟨0, by decide⟩) ++
          repSpaces (max 0 ((20 : Int) -
            (((joinWords ((groupWordsIntoLines (wordsOf sampleText) 20).get
              ⟨0, by decide⟩)).length : Nat) : Int))) ∧
      ((justifiedLines sampleText 20).get ⟨0, by decide⟩).length =
        max (20 : Int).toNat
          (joinWords ((groupWordsIntoLines (wordsOf sampleText) 20).get ⟨0, by decide⟩)).length) :=
  justify_width_invariant sampleText 20 (by decide) (by decide) 0 (by decide) (by decide)

end Justify

namespace Justify

theorem tokAux_allSpace : ∀ (s : List Char), (∀ c ∈ s, isSpaceChar c = true) →
    ∀ acc, tokAux s acc = tokAux [] acc := by
  intro s
  induction s with
  | nil => intro _ acc; rfl
  | cons c cs ih =>
    intro hs acc
    have hc : isSpaceChar c = true := hs c (List.mem_cons_self _ _)
    have hcs : ∀ x ∈ cs, isSpaceChar x = true := fun x hx => hs x (List.mem_cons_of_mem _ hx)
    simp only [tokAux, hc, if_true]
    by_cases ha : acc.isEmpty
    · rw [if_pos ha, ih hcs []]
      simp [tokAux, ha]
    · rw [if_neg ha, ih hcs []]
      simp [tokAux, ha]

theorem tokAux_leading : ∀ (s : List Char), (∀ x ∈ s, isSpaceChar x = true) →
    ∀ rest, tokAux (s ++ rest) [] = tokAux rest [] := by
  intro s
  induction s with
  | nil => intro _ rest; rfl
  | cons c cs ih =>
    intro hs rest
    have hc : isSpaceChar c = true := hs c (List.mem_cons_self _ _)
    simp only [List.cons_append, tokAux, hc, if_true, List.isEmpty_nil]
    exact ih (fun x hx => hs x (List.mem_cons_of_mem _ hx)) rest

theorem tokAux_flush : ∀ (s : List Char), s ≠ [] → (∀ x ∈ s, isSpaceChar x = true) →
    ∀ (tail acc : List Char), acc.isEmpty = false →
      tokAux (s ++ tail) acc = acc.reverse :: tokAux tail [] := by
  intro s
  cases s with
  | nil => intro h; exact absurd rfl h
  | cons c cs =>
    intro _ hs tail acc ha
    have hc : isSpaceChar c = true := hs c (List.mem_cons_self _ _)
    simp only [List.cons_append, tokAux, List.append_eq, hc, if_true, ha, Bool.false_eq_true, if_false]
    rw [tokAux_leading cs (fun x hx => hs x (List.mem_cons_of_mem _ hx)) tail]

theorem tokAux_append_space {c : Char} (hc : isSpaceChar c = true) :
    ∀ (a ys acc : List Char),
      tokAux (a ++ c :: ys) acc = tokAux a acc ++ tokAux ys [] := by
  intro a
  induction a with
  | nil =>
    intro ys acc
    by_cases ha : acc.isEmpty
    · simp [tokAux, hc, ha]
    · simp [tokAux, hc, ha]
  | cons x a' ih =>
    intro ys acc
    simp only [List.cons_append, tokAux, List.append_eq]
    cases hx : isSpaceChar x with
    | true =>
      simp only [if_true]
      by_cases ha : acc.isEmpty
      · simp only [ha, if_true, ih]
      · simp only [ha, Bool.false_eq_true, if_false, ih, List.cons_append]
    | false =>
      simp only [Bool.false_eq_true, if_false, ih]

theorem tokAux_word : ∀ (v : List Char), (∀ x ∈ v, isSpaceChar x = false) →
    ∀ (rest acc : List Char), tokAux (v ++ rest) acc = tokAux rest (v.reverse ++ acc) := by
  intro v
  induction v with
  | nil => intro _ rest acc; simp
  | cons x v' ih =>
    intro hv rest acc
    have hx : isSpaceChar x = false := hv x (List.mem_cons_self _ _)
    simp only [List.cons_append, tokAux, List.append_eq, hx, Bool.false_eq_true, if_false]
    rw [ih (fun y hy => hv y (List.mem_cons_of_mem _ hy)) rest (x :: acc)]
    congr 1
    simp

theorem tokAux_trailing : ∀ (s : List Char), (∀ x ∈ s, isSpaceChar x = true) →
    ∀ (a acc : List Char), tokAux (a ++ s) acc = tokAux a acc := by
  intro s hs a
  induction a with
  | nil =>
    intro acc
    rw [List.nil_append, tokAux_allSpace s hs acc]
  | cons x a' ih =>
    intro acc
    simp only [List.cons_append, tokAux, List.append_eq]
    cases hx : isSpaceChar x with
    | true =>
      simp only [if_true]
      by_cases ha : acc.isEmpty
      · simp only [ha, if_true, ih]
      · simp only [ha, Bool.false_eq_true, if_false, ih]
    | false =>
      simp only [Bool.false_eq_true, if_false, ih]

theorem tokAux_sane : ∀ (l acc : List Char), (∀ c ∈ acc, isSpaceChar c = false) →
    ∀ tk ∈ tokAux l acc, tk ≠ [] ∧ ∀ c ∈ tk, isSpaceChar c = false := by
  intro l
  induction l with
  | nil =>
    intro acc hacc tk htk
    by_cases ha : acc.isEmpty
    · simp [tokAux, ha] at htk
    · simp only [tokAux, ha, Bool.false_eq_true, if_false, List.mem_singleton] at htk
      subst htk
      refine ⟨fun h => ?_, fun c hc => hacc c (List.mem_reverse.mp hc)⟩
      rw [List.reverse_eq_nil_iff] at h
      simp [h] at ha
  | cons c cs ih =>
    intro acc hacc tk htk
    simp only [tokAux] at htk
    cases hc : isSpaceChar c with
    | true =>
      rw [hc] at htk
      simp only [if_true] at htk
      by_cases ha : acc.isEmpty
      · rw [if_pos ha] at htk
        exact ih [] (by simp) tk htk
      · rw [if_neg ha] at htk
        rcases List.mem_cons.mp htk with h | h
        · subst h
          refine ⟨fun h => ?_, fun d hd => hacc d (List.mem_reverse.mp hd)⟩
          rw [List.reverse_eq_nil_iff] at h
          simp [h] at ha
        · exact ih [] (by simp) tk h
    | false =>
      rw [hc] at htk
      simp only [Bool.false_eq_true, if_false] at htk
      refine ih (c :: acc) ?_ tk htk
      intro d hd
      rcases List.mem_cons.mp hd with h | h
      · subst h; exact hc
      · exact hacc d h

theorem tokenize_sane (l : List Char) :
    ∀ tk ∈ tokenize l, tk ≠ [] ∧ ∀ c ∈ tk, isSpaceChar c = false :=
  tokAux_sane l [] (by simp)

theorem tokenize_trimChars (l : List Char) : tokenize (trimChars l) = tokenize l := by
  have hfront : tokenize l = tokenize (l.dropWhile isSpaceChar) := by
    conv_lhs => rw [← List.takeWhile_append_dropWhile (p := isSpaceChar) (l := l)]
    exact tokAux_leading _ (fun x hx => List.mem_takeWhile_imp hx) _
  have hmid : l.dropWhile isSpaceChar =
      ((l.dropWhile isSpaceChar).reverse.dropWhile isSpaceChar).reverse ++
        ((l.dropWhile isSpaceChar).reverse.takeWhile isSpaceChar).reverse := by
    conv_lhs => rw [← List.reverse_reverse (l.dropWhile isSpaceChar),
      ← List.takeWhile_append_dropWhile (p := isSpaceChar)
        (l := (l.dropWhile isSpaceChar).reverse)]
    rw [List.reverse_append]
  have hback : tokenize (l.dropWhile isSpaceChar) =
      tokenize (((l.dropWhile isSpaceChar).reverse.dropWhile isSpaceChar).reverse) := by
    conv_lhs => rw [hmid]
    exact tokAux_trailing _
      (fun x hx => List.mem_takeWhile_imp (List.mem_reverse.mp hx)) _ []
  rw [hfront, hback]
  rfl

theorem wordsOf_eq_tokenize (text : List Char) (h : ¬ trimChars text = []) :
    wordsOf text = tokenize text := by
  rw [wordsOf]
  simp only [List.isEmpty_iff, h, if_false]
  exact tokenize_trimChars text

theorem tokenize_joinWords_pad :
    ∀ (ws : List (List Char)), ws ≠ [] →
      (∀ x ∈ ws, x ≠ [] ∧ ∀ c ∈ x, isSpaceChar c = false) →
      ∀ (s : List Char), (∀ c ∈ s, isSpaceChar c = true) →
        tokenize (joinWords ws ++ s) = ws := by
  intro ws
  induction ws with
  | nil => intro h; exact absurd rfl h
  | cons x ws' ih =>
    intro _ hok s hs
    have hx := hok x (List.mem_cons_self _ _)
    cases ws' with
    | nil =>
      show tokAux (joinWords [x] ++ s) [] = [x]
      rw [show joinWords [x] = x from rfl, tokAux_word x hx.2 s [],
        tokAux_allSpace s hs (x.reverse ++ [])]
      simp only [tokAux, List.append_nil, List.isEmpty_iff, List.reverse_eq_nil_iff]
      rw [if_neg hx.1]
      simp
    | cons y ws'' =>
      show tokAux (joinWords (x :: y :: ws'') ++ s) [] = x :: y :: ws''
      rw [show joinWords (x :: y :: ws'') = x ++ ' ' :: joinWords (y :: ws'') from rfl,
        List.append_assoc, List.cons_append, tokAux_word x hx.2]
      simp only [tokAux, show isSpaceChar ' ' = true from rfl, if_true, List.append_nil,
        List.isEmpty_iff, List.reverse_eq_nil_iff]
      rw [if_neg hx.1, List.reverse_reverse]
      have := ih (by simp) (fun z hz => hok z (List.mem_cons_of_mem _ hz)) s hs
      rw [show tokAux (joinWords (y :: ws'') ++ s) [] = tokenize (joinWords (y :: ws'') ++ s)
        from rfl, this]

theorem tokenize_justifyGaps {b e : Int} (hb : 1 ≤ b) :
    ∀ (ws : List (List Char)), ws ≠ [] →
      (∀ x ∈ ws, x ≠ [] ∧ ∀ c ∈ x, isSpaceChar c = false) →
      ∀ i, tokenize (justifyGaps b e i ws) = ws := by
  intro ws
  induction ws with
  | nil => intro h; exact absurd rfl h
  | cons x ws' ih =>
    intro _ hok i
    have hx := hok x (List.mem_cons_self _ _)
    cases ws' with
    | nil =>
      show tokAux (justifyGaps b e i [x]) [] = [x]
      rw [show justifyGaps b e i [x] = x from rfl]
      rw [show (x : List Char) = x ++ [] from (List.append_nil x).symm, tokAux_word x hx.2]
      simp only [tokAux, List.append_nil, List.isEmpty_iff, List.reverse_eq_nil_iff]
      rw [if_neg hx.1]
      simp
    | cons y ws'' =>
      show tokAux (justifyGaps b e i (x :: y :: ws'')) [] = x :: y :: ws''
      rw [show justifyGaps b e i (x :: y :: ws'') =
        x ++ repSpaces (b + if (i : Int) < e then 1 else 0) ++ justifyGaps b e (i + 1) (y :: ws'')
        from rfl, List.append_assoc, tokAux_word x hx.2]
      have hsp : repSpaces (b + if (i : Int) < e then 1 else 0) ≠ [] := by
        simp only [repSpaces, ne_eq, List.replicate_eq_nil_iff]
        split_ifs <;> omega
      have hacc : (x.reverse ++ ([] : List Char)).isEmpty = false := by
        rw [List.append_nil]
        cases hbb : x.reverse.isEmpty with
        | false => rfl
        | true => exact absurd (List.reverse_eq_nil_iff.mp (List.isEmpty_iff.mp hbb)) hx.1
      rw [tokAux_flush _ hsp
        (fun c hc => by rw [List.eq_of_mem_replicate hc]; rfl) _ _ hacc]
      rw [List.append_nil, List.reverse_reverse]
      have hih := ih (by simp) (fun z hz => hok z (List.mem_cons_of_mem _ hz)) (i + 1)
      rw [show tokAux (justifyGaps b e (i + 1) (y :: ws'')) [] =
        tokenize (justifyGaps b e (i + 1) (y :: ws'')) from rfl, hih]

theorem tokenize_justifyLastLine (ws : List (List Char)) (w : Int) (hne : ws ≠ [])
    (hok : ∀ x ∈ ws, x ≠ [] ∧ ∀ c ∈ x, isSpaceChar c = false) :
    tokenize (justifyLastLine ws w) = ws := by
  rw [show justifyLastLine ws w =
    joinWords ws ++ repSpaces (max 0 (w - (((joinWords ws).length : Nat) : Int))) from rfl]
  refine tokenize_joinWords_pad ws hne hok _ ?_
  intro c hc
  simp only [repSpaces] at hc
  rw [List.eq_of_mem_replicate hc]
  rfl

theorem tokenize_justifyLine (ws : List (List Char)) (w : Int) (h2 : 2 ≤ ws.length)
    (hfit : (lineLen ws : Int) ≤ w)
    (hok : ∀ x ∈ ws, x ≠ [] ∧ ∀ c ∈ x, isSpaceChar c = false) :
    tokenize (justifyLine ws w) = ws := by
  have hne : ws ≠ [] := by
    intro h
    subst h
    simp at h2
  have hlen1 : ¬ ws.length = 1 := by omega
  rw [justifyLine, if_neg hlen1]
  have hg0 : (0 : Int) ≤ (ws.length : Int) - 1 := by
    have : (2 : Int) ≤ ws.length := by exact_mod_cast h2
    omega
  have hgpos : (0 : Int) < (ws.length : Int) - 1 := by
    have : (2 : Int) ≤ ws.length := by exact_mod_cast h2
    omega
  have hfit' : ((sumLens ws : Nat) : Int) + ws.length - 1 ≤ w := by
    simp only [lineLen] at hfit
    omega
  have hb1 : 1 ≤ Int.fdiv (w - (((ws.map List.length).sum : Nat) : Int))
      ((ws.length : Int) - 1) := by
    rw [Int.fdiv_eq_ediv _ hg0, Int.le_ediv_iff_mul_le hgpos]
    have hSS : (((ws.map List.length).sum : Nat) : Int) = ((sumLens ws : Nat) : Int) := rfl
    omega
  exact tokenize_justifyGaps hb1 ws hne hok 0

theorem tokenize_joinLines : ∀ rs : List (List Char),
    tokenize (joinLines rs) = (rs.map tokenize).flatten := by
  intro rs
  induction rs with
  | nil => rfl
  | cons r rest ih =>
    cases rest with
    | nil => simp [joinLines]
    | cons r2 rest2 =>
      rw [show joinLines (r :: r2 :: rest2) = r ++ '\n' :: joinLines (r2 :: rest2) from rfl,
        show tokenize (r ++ '\n' :: joinLines (r2 :: rest2)) =
          tokAux (r ++ '\n' :: joinLines (r2 :: rest2)) [] from rfl,
        tokAux_append_space (show isSpaceChar '\n' = true from rfl) r _ [],
        show tokAux (joinLines (r2 :: rest2)) [] = tokenize (joinLines (r2 :: rest2)) from rfl,
        ih]
      simp
      rfl

theorem renderLines_tokenize (w : Int) : ∀ L : List (List (List Char)),
    (∀ line ∈ L, line ≠ [] ∧ (2 ≤ line.length → (lineLen line : Int) ≤ w)) →
    (∀ line ∈ L, ∀ x ∈ line, x ≠ [] ∧ ∀ c ∈ x, isSpaceChar c = false) →
    (renderLines w L).map tokenize = L := by
  intro L
  induction L with
  | nil => intro _ _; rfl
  | cons line rest ih =>
    intro hsane hok
    have hline := hsane line (List.mem_cons_self _ _)
    have hlineok := hok line (List.mem_cons_self _ _)
    cases rest with
    | nil =>
      simp only [renderLines, List.map_cons, List.map_nil]
      rw [tokenize_justifyLastLine line w hline.1 hlineok]
    | cons l2 rest2 =>
      have htail := ih (fun l hl => hsane l (List.mem_cons_of_mem _ hl))
        (fun l hl => hok l (List.mem_cons_of_mem _ hl))
      simp only [renderLines, List.map_cons] at htail ⊢
      rw [htail]
      by_cases h1 : line.length = 1
      · rw [justifyLine, if_pos h1, tokenize_justifyLastLine line w hline.1 hlineok]
      · have hpos : 0 < line.length := List.length_pos.mpr hline.1
        have h2 : 2 ≤ line.length := by omega
        rw [tokenize_justifyLine line w h2 (hline.2 h2) hlineok]

/-- C2: for every input text and every width > 0, the sequence of maximal
non-whitespace runs read off the output of `justifyText` equals the
whitespace-collapsed word sequence of the input: no word is dropped, split,
duplicated or reordered, and no non-space characters are introduced. -/
theorem justify_word_preservation (text : List Char) (w : Int) (hw : 0 < w) :
    tokenize (justifyText text w) = tokenize text := by
  by_cases ht : trimChars text = []
  · rw [justifyText_of_trim_empty text w hw ht]
    have h1 : tokenize (List.replicate w.toNat ' ') = [] := by
      rw [show tokenize (List.replicate w.toNat ' ') =
        tokAux (List.replicate w.toNat ' ') [] from rfl,
        tokAux_allSpace _ (fun c hc => by rw [List.eq_of_mem_replicate hc]; rfl) []]
      rfl
    rw [h1, ← tokenize_trimChars text, ht]
    rfl
  · have hwords : wordsOf text = tokenize text := wordsOf_eq_tokenize text ht
    have hok : ∀ line ∈ groupWordsIntoLines (wordsOf text) w, ∀ x ∈ line,
        x ≠ [] ∧ ∀ c ∈ x, isSpaceChar c = false := by
      intro line hl x hx
      have hxw : x ∈ wordsOf text := by
        rw [← groupWordsIntoLines_join (wordsOf text) w]
        exact List.mem_flatten_of_mem hl hx
      rw [hwords] at hxw
      exact tokenize_sane text x hxw
    rw [show justifyText text w =
      joinLines (renderLines w (groupWordsIntoLines (wordsOf text) w)) from rfl,
      tokenize_joinLines,
      renderLines_tokenize w _ (groupWordsIntoLines_sane (wordsOf text) w) hok,
      groupWordsIntoLines_join, hwords]

/-- C2 (witness): word preservation at the sample text and width 20. -/
theorem justify_word_preservation_witness :
    tokenize (justifyText sampleText 20) = tokenize sampleText :=
  justify_word_preservation sampleText 20 (by decide)

end Justify

namespace Auth

theorem mapGet_nil {α : Type} (k : String) : mapGet ([] : List (String × α)) k = none :=
  rfl

theorem mapGet_cons {α : Type} (a : String) (b : α) (m : List (String × α)) (k : String) :
    mapGet ((a, b) :: m) k = if a = k then some b else mapGet m k := by
  by_cases h : a = k
  · simp [mapGet, List.find?_cons, h]
  · simp [mapGet, List.find?_cons, h]

theorem mapGet_map_update_ne {α : Type} (m : List (String × α)) (k k' : String) (v : α)
    (hk : ¬ k' = k) :
    mapGet (m.map (fun p => if p.1 = k then (k, v) else p)) k' = mapGet m k' := by
  induction m with
  | nil => rfl
  | cons p m' ih =>
    rcases p with ⟨a, b⟩
    simp only [List.map_cons]
    by_cases ha : a = k
    · subst ha
      rw [if_pos (show ((a, b) : String × α).1 = a from rfl), mapGet_cons, mapGet_cons,
        if_neg (fun h => hk h.symm), if_neg (fun h => hk h.symm)]
      exact ih
    · rw [if_neg (show ¬ ((a, b) : String × α).1 = k from ha), mapGet_cons, mapGet_cons]
      by_cases hak : a = k'
      · rw [if_pos hak, if_pos hak]
      · rw [if_neg hak, if_neg hak]
        exact ih

theorem mapGet_map_update_hit {α : Type} (m : List (String × α)) (k : String) (v : α)
    (hany : m.any (fun p => decide (p.1 = k)) = true) :
    mapGet (m.map (fun p => if p.1 = k then (k, v) else p)) k = some v := by
  induction m with
  | nil => simp at hany
  | cons p m' ih =>
    rcases p with ⟨a, b⟩
    simp only [List.any_cons, Bool.or_eq_true, decide_eq_true_eq] at hany
    simp only [List.map_cons]
    by_cases ha : a = k
    · subst ha
      rw [if_pos (show ((a, b) : String × α).1 = a from rfl), mapGet_cons, if_pos rfl]
    · rw [if_neg (show ¬ ((a, b) : String × α).1 = k from ha), mapGet_cons, if_neg ha]
      exact ih (hany.resolve_left ha)

theorem mapGet_append_single {α : Type} (m : List (String × α)) (k k' : String) (v : α)
    (hnone : ¬ m.any (fun p => decide (p.1 = k)) = true) :
    mapGet (m ++ [(k, v)]) k' = if k' = k then some v else mapGet m k' := by
  induction m with
  | nil =>
    rw [List.nil_append, mapGet_cons]
    by_cases hk : k' = k
    · rw [if_pos hk.symm, if_pos hk]
    · rw [if_neg (fun h => hk h.symm), if_neg hk]
  | cons p m' ih =>
    rcases p with ⟨a, b⟩
    simp only [List.any_cons, Bool.or_eq_true, decide_eq_true_eq, not_or] at hnone
    rw [List.cons_append, mapGet_cons]
    by_cases hak : a = k'
    · rw [if_pos hak, if_neg (fun h => hnone.1 (hak.trans h)), mapGet_cons, if_pos hak]
    · rw [if_neg hak, ih (by simpa using hnone.2)]
      by_cases hk : k' = k
      · rw [if_pos hk, if_pos hk]
      · rw [if_neg hk, if_neg hk, mapGet_cons, if_neg hak]

theorem mapGet_mapSet {α : Type} (m : List (String × α)) (k k' : String) (v : α) :
    mapGet (mapSet m k v) k' = if k' = k then some v else mapGet m k' := by
  rw [mapSet]
  by_cases hany : m.any (fun p => decide (p.1 = k)) = true
  · rw [if_pos hany]
    by_cases hk : k' = k
    · subst hk
      rw [if_pos rfl, mapGet_map_update_hit m k' v hany]
    · rw [if_neg hk, mapGet_map_update_ne m k k' v hk]
  · rw [if_neg hany, mapGet_append_single m k k' v hany]

theorem mapGet_mapDelete {α : Type} (m : List (String × α)) (k k' : String) :
    mapGet (mapDelete m k) k' = if k' = k then none else mapGet m k' := by
  induction m with
  | nil =>
    by_cases hk : k' = k
    · rw [if_pos hk]; rfl
    · rw [if_neg hk]; rfl
  | cons p m' ih =>
    rcases p with ⟨a, b⟩
    simp only [mapDelete, List.filter_cons] at ih ⊢
    by_cases ha : a = k
    · rw [if_neg (show ¬ (decide (((a, b) : String × α).1 ≠ k) = true) from by simp [ha])]
      rw [ih, mapGet_cons]
      by_cases hk : k' = k
      · rw [if_pos hk, if_pos hk]
      · rw [if_neg hk, if_neg hk, if_neg (fun h => hk (h.symm.trans ha))]
    · rw [if_pos (show (decide (((a, b) : String × α).1 ≠ k) = true) from by simp [ha])]
      rw [mapGet_cons, mapGet_cons]
      by_cases hak : a = k'
      · rw [if_pos hak, if_neg (fun h => ha (hak.trans h)), if_pos hak]
      · rw [if_neg hak, ih]
        by_cases hk : k' = k
        · rw [if_pos hk, if_pos hk]
        · rw [if_neg hk, if_neg hk, if_neg hak]

theorem setAdd_mem {s : List String} {x t : String} (h : t ∈ setAdd s x) : t ∈ s ∨ t = x := by
  rw [setAdd] at h
  split_ifs at h with hc
  · exact Or.inl h
  · rcases List.mem_append.mp h with h | h
    · exact Or.inl h
    · exact Or.inr (List.mem_singleton.mp h)

theorem setAdd_ne_nil (s : List String) (x : String) : setAdd s x ≠ [] := by
  rw [setAdd]
  split_ifs with hc
  · intro h
    subst h
    simp at hc
  · simp

theorem setDelete_subset {s : List String} {x t : String} (h : t ∈ setDelete s x) : t ∈ s :=
  List.mem_of_mem_filter h

theorem retrieve_of_invalid (ts : TokenStore) (token : String) (now : Int) (st : StoredToken)
    (hst : mapGet ts.tokens token = some st) (hinv : st.isValid = false) :
    retrieve ts token now = (Except.error "Token is invalid", ts) := by
  simp only [retrieve, hst]
  rw [if_pos (show (!st.isValid) = true from by simp [hinv])]

theorem exists_mapGet_mapSet {α : Type} (m : List (String × α)) (k : String) (v : α)
    (t : String) (h : (∃ st, mapGet m t = some st) ∨ t = k) :
    ∃ st, mapGet (mapSet m k v) t = some st := by
  rw [mapGet_mapSet]
  by_cases hk : t = k
  · rw [if_pos hk]
    exact ⟨v, rfl⟩
  · rw [if_neg hk]
    rcases h with h | h
    · exact h
    · exact absurd h hk

theorem revoke_indexOK (ts : TokenStore) (token : String) (h : IndexOK ts) :
    IndexOK (revoke ts token).2 := by
  rcases hg : mapGet ts.tokens token with _ | st
  · simp only [revoke, hg]
    exact h
  · rcases he : mapGet ts.emailToTokens st.email with _ | set
    · simp only [revoke, hg, he]
      refine ⟨fun email toks hm => h.1 email toks hm, fun email toks t hm ht => ?_⟩
      exact exists_mapGet_mapSet _ _ _ _ (Or.inl (h.2 email toks t hm ht))
    · by_cases hemp : (setDelete set token).isEmpty = true
      · simp only [revoke, hg, he, hemp, if_true]
        refine ⟨?_, ?_⟩
        · intro email toks hm
          rw [mapGet_mapDelete] at hm
          by_cases hmail : email = st.email
          · rw [if_pos hmail] at hm
            exact Option.noConfusion hm
          · rw [if_neg hmail] at hm
            exact h.1 email toks hm
        · intro email toks t hm ht
          rw [mapGet_mapDelete] at hm
          by_cases hmail : email = st.email
          · rw [if_pos hmail] at hm
            exact Option.noConfusion hm
          · rw [if_neg hmail] at hm
            exact exists_mapGet_mapSet _ _ _ _ (Or.inl (h.2 email toks t hm ht))
      · simp only [revoke, hg, he]
        rw [if_neg hemp]
        refine ⟨?_, ?_⟩
        · intro email toks hm
          rw [mapGet_mapSet] at hm
          by_cases hmail : email = st.email
          · rw [if_pos hmail] at hm
            have heq := Option.some.inj hm
            intro hnil
            apply hemp
            rw [← heq] at hnil
            rw [hnil]
            rfl
          · rw [if_neg hmail] at hm
            exact h.1 email toks hm
        · intro email toks t hm ht
          rw [mapGet_mapSet] at hm
          by_cases hmail : email = st.email
          · rw [if_pos hmail] at hm
            have heq := Option.some.inj hm
            subst heq
            have hts : t ∈ set := setDelete_subset ht
            exact exists_mapGet_mapSet _ _ _ _ (Or.inl (h.2 st.email set t he hts))
          · rw [if_neg hmail] at hm
            exact exists_mapGet_mapSet _ _ _ _ (Or.inl (h.2 email toks t hm ht))

theorem insert_phase_indexOK (ts1 : TokenStore) (token email : String) (rec : StoredToken)
    (h : IndexOK ts1) :
    IndexOK
      { ts1 with
        tokens := mapSet ts1.tokens token rec
        emailToTokens :=
          mapSet
            (if (mapGet ts1.emailToTokens email).isNone then mapSet ts1.emailToTokens email []
             else ts1.emailToTokens)
            email
            (setAdd
              ((mapGet
                (if (mapGet ts1.emailToTokens email).isNone then mapSet ts1.emailToTokens email []
                 else ts1.emailToTokens) email).getD [])
              token) } := by
  constructor
  · intro email2 toks hm
    rw [mapGet_mapSet] at hm
    by_cases he2 : email2 = email
    · rw [if_pos he2] at hm
      have heq := Option.some.inj hm
      intro hnil
      exact setAdd_ne_nil _ _ (heq.trans hnil)
    · rw [if_neg he2] at hm
      by_cases hnone : (mapGet ts1.emailToTokens email).isNone = true
      · rw [if_pos hnone, mapGet_mapSet, if_neg he2] at hm
        exact h.1 email2 toks hm
      · rw [if_neg hnone] at hm
        exact h.1 email2 toks hm
  · intro email2 toks t hm ht
    rw [mapGet_mapSet] at hm
    by_cases he2 : email2 = email
    · rw [if_pos he2] at hm
      have heq := Option.some.inj hm
      subst heq
      rcases setAdd_mem ht with hin | hteq
      · by_cases hnone : (mapGet ts1.emailToTokens email).isNone = true
        · rw [if_pos hnone, mapGet_mapSet, if_pos rfl] at hin
          simp at hin
        · rw [if_neg hnone] at hin
          rcases hset : mapGet ts1.emailToTokens email with _ | set0
          · rw [hset] at hnone
            simp at hnone
          · rw [hset] at hin
            simp only [Option.getD_some] at hin
            exact exists_mapGet_mapSet _ _ _ _ (Or.inl (h.2 email set0 t hset hin))
      · exact exists_mapGet_mapSet _ _ _ _ (Or.inr hteq)
    · rw [if_neg he2] at hm
      by_cases hnone : (mapGet ts1.emailToTokens email).isNone = true
      · rw [if_pos hnone, mapGet_mapSet, if_neg he2] at hm
        exact exists_mapGet_mapSet _ _ _ _ (Or.inl (h.2 email2 toks t hm ht))
      · rw [if_neg hnone] at hm
        exact exists_mapGet_mapSet _ _ _ _ (Or.inl (h.2 email2 toks t hm ht))

theorem store_indexOK (ts : TokenStore) (token email : String) (now : Int) (h : IndexOK ts) :
    IndexOK (store ts token email now).2 := by
  have h1 : IndexOK
      (if ((mapGet ts.emailToTokens email).getD []).length ≥ ts.maxTokensPerEmail then
        match findOldestTokenForEmail ts email now with
        | some oldest => (revoke ts oldest).2
        | none => ts
      else ts) := by
    split_ifs with hc
    · rcases hold : findOldestTokenForEmail ts email now with _ | oldest
      · exact h
      · exact revoke_indexOK ts oldest h
    · exact h
  simp only [store]
  exact insert_phase_indexOK _ token email ⟨email, now, now, true⟩ h1

theorem retrieve_indexOK (ts : TokenStore) (token : String) (now : Int) (h : IndexOK ts) :
    IndexOK (retrieve ts token now).2 := by
  rcases hg : mapGet ts.tokens token with _ | st
  · simp only [retrieve, hg]
    exact h
  · simp only [retrieve, hg]
    by_cases hv : st.isValid = true
    · rw [if_neg (show ¬ ((!st.isValid) = true) from by simp [hv])]
      by_cases hex : isExpired ts st now = true
      · rw [if_pos hex]
        exact revoke_indexOK ts token h
      · rw [if_neg hex]
        refine ⟨h.1, ?_⟩
        intro email toks t hm ht
        exact exists_mapGet_mapSet _ _ _ _ (Or.inl (h.2 email toks t hm ht))
    · rw [if_pos (show (!st.isValid) = true from by simp [hv])]
      exact h

theorem revokeAll_fold_indexOK :
    ∀ (toks : List String) (acc : Nat × TokenStore), IndexOK acc.2 →
      IndexOK ((toks.foldl (fun acc t =>
        let (changed, ts') := revoke acc.2 t
        (if changed then acc.1 + 1 else acc.1, ts')) acc).2) := by
  intro toks
  induction toks with
  | nil => intro acc h; exact h
  | cons t rest ih =>
    intro acc h
    simp only [List.foldl_cons]
    exact ih _ (revoke_indexOK acc.2 t h)

theorem revokeAll_indexOK (ts : TokenStore) (email : String) (h : IndexOK ts) :
    IndexOK (revokeAllForEmail ts email).2 := by
  rcases he : mapGet ts.emailToTokens email with _ | toks
  · simp only [revokeAllForEmail, he]
    exact h
  · simp only [revokeAllForEmail, he]
    exact revokeAll_fold_indexOK toks (0, ts) h

theorem applyOp_indexOK (ts : TokenStore) (op : TSOp) (h : IndexOK ts) :
    IndexOK (applyOp ts op) := by
  cases op with
  | opStore token email now => exact store_indexOK ts token email now h
  | opRetrieve token now => exact retrieve_indexOK ts token now h
  | opRevoke token => exact revoke_indexOK ts token h
  | opRevokeAll email => exact revokeAll_indexOK ts email h

theorem empty_indexOK : IndexOK TokenStore.empty := by
  constructor
  · intro email toks hm
    simp [mapGet, TokenStore.empty] at hm
  · intro email toks t hm ht
    simp [mapGet, TokenStore.empty] at hm

/-- C6 (amended): after every sequence of store, retrieve, revoke and
revokeAll operations from the empty registry, every token in the email
index has a record in the token store and no email is mapped to an empty
token set; the reverse containment fails because revoked records stay in
the token store for audit while being removed from the index. -/
theorem index_store_consistency (ops : List TSOp) : IndexOK (runOps ops) := by
  have main : ∀ (l : List TSOp) (ts : TokenStore), IndexOK ts → IndexOK (l.foldl applyOp ts) := by
    intro l
    induction l with
    | nil => intro ts h; exact h
    | cons op rest ih =>
      intro ts h
      simp only [List.foldl_cons]
      exact ih _ (applyOp_indexOK ts op h)
  exact main ops TokenStore.empty empty_indexOK

/-- C6 (witness): the invariant after a store followed by a revoke. -/
theorem index_store_consistency_witness :
    IndexOK (runOps [TSOp.opStore "t" "e" 0, TSOp.opRevoke "t"]) :=
  index_store_consistency [TSOp.opStore "t" "e" 0, TSOp.opRevoke "t"]

/-- C6 (counterexample): after storing token "t" for "e" and revoking it,
the record of "t" is still in the token store (marked invalid, kept for
audit) while the email index is empty, so the claimed bidirectional
consistency ("a token is in the index iff it has a record in the store")
fails. -/
theorem index_consistency_counterexample :
    ¬ (∀ token : String,
        (∃ email toks,
          mapGet (runOps [TSOp.opStore "t" "e" 0, TSOp.opRevoke "t"]).emailToTokens email =
            some toks ∧ token ∈ toks) ↔
        ∃ st, mapGet (runOps [TSOp.opStore "t" "e" 0, TSOp.opRevoke "t"]).tokens token =
          some st) := by
  intro hiff
  have hr : runOps [TSOp.opStore "t" "e" 0, TSOp.opRevoke "t"] =
      ⟨[("t", ⟨"e", 0, 0, false⟩)], [], 24 * 60 * 60 * 1000, 5⟩ := by decide
  have h1 := (hiff "t").mpr ⟨⟨"e", 0, 0, false⟩, by rw [hr]; decide⟩
  obtain ⟨email, toks, hm, _⟩ := h1
  rw [hr] at hm
  simp [mapGet] at hm

/-- C5 (amended): retrieve fails with the not-found message when the token
has no record, with the invalid message when the record is revoked, and
with the expired message when the age strictly exceeds the TTL (marking the
record invalid as a side effect); on success it refreshes lastUsed and
returns the binding.  A token is usable iff it is valid and
now - createdAt is at most the TTL (the code treats age equal to the TTL
as still usable, so the bound is non-strict). -/
theorem retrieve_error_kinds (ts : TokenStore) (token : String) (now : Int) :
    (mapGet ts.tokens token = none →
      retrieve ts token now = (Except.error "Token not found", ts)) ∧
    (∀ st, mapGet ts.tokens token = some st → st.isValid = false →
      retrieve ts token now = (Except.error "Token is invalid", ts)) ∧
    (∀ st, mapGet ts.tokens token = some st → st.isValid = true →
      ts.tokenTTL < now - st.createdAt →
      (retrieve ts token now).1 = Except.error "Token has expired" ∧
      mapGet (retrieve ts token now).2.tokens token = some { st with isValid := false }) ∧
    (∀ st, mapGet ts.tokens token = some st → st.isValid = true →
      now - st.createdAt ≤ ts.tokenTTL →
      retrieve ts token now = (Except.ok { st with lastUsed := now },
        { ts with tokens := mapSet ts.tokens token { st with lastUsed := now } })) ∧
    ((∃ st, (retrieve ts token now).1 = Except.ok st) ↔
      ∃ st, mapGet ts.tokens token = some st ∧ st.isValid = true ∧
        now - st.createdAt ≤ ts.tokenTTL) := by
  refine ⟨?_, ?_, ?_, ?_, ?_⟩
  · intro hnone
    simp only [retrieve, hnone]
  · intro st hst hinv
    simp only [retrieve, hst]
    rw [if_pos (show (!st.isValid) = true from by simp [hinv])]
  · intro st hst hval hexp
    have hex : isExpired ts st now = true := by
      simp only [isExpired, decide_eq_true_eq]
      omega
    simp only [retrieve, hst]
    rw [if_neg (show ¬ ((!st.isValid) = true) from by simp [hval]), if_pos hex]
    refine ⟨rfl, ?_⟩
    simp only [revoke, hst]
    rw [mapGet_mapSet, if_pos rfl]
  · intro st hst hval hle
    have hex : isExpired ts st now = false := by
      simp only [isExpired, decide_eq_false_iff_not]
      omega
    simp only [retrieve, hst]
    rw [if_neg (show ¬ ((!st.isValid) = true) from by simp [hval]),
      if_neg (show ¬ (isExpired ts st now = true) from by simp [hex])]
  · constructor
    · rintro ⟨st', hok⟩
      rcases hg : mapGet ts.tokens token with _ | st
      · simp only [retrieve, hg] at hok
        exact Except.noConfusion hok
      · by_cases hv : st.isValid = true
        · by_cases hex : isExpired ts st now = true
          · simp only [retrieve, hg] at hok
            rw [if_neg (show ¬ ((!st.isValid) = true) from by simp [hv]), if_pos hex] at hok
            exact Except.noConfusion hok
          · refine ⟨st, rfl, hv, ?_⟩
            simp only [isExpired, decide_eq_true_eq] at hex
            omega
        · simp only [retrieve, hg] at hok
          rw [if_pos (show (!st.isValid) = true from by simp [hv])] at hok
          exact Except.noConfusion hok
    · rintro ⟨st, hst, hval, hle⟩
      have hex : isExpired ts st now = false := by
        simp only [isExpired, decide_eq_false_iff_not]
        omega
      simp only [retrieve, hst]
      rw [if_neg (show ¬ ((!st.isValid) = true) from by simp [hval]),
        if_neg (show ¬ (isExpired ts st now = true) from by simp [hex])]
      exact ⟨_, rfl⟩

/-- C5 (witness): the retrieve case analysis at a concrete store holding
one valid token with TTL 10, queried at time 3. -/
theorem retrieve_error_kinds_witness :
    (mapGet (⟨[("t", ⟨"e", 0, 0, true⟩)], [("e", ["t"])], 10, 5⟩ : TokenStore).tokens "t" =
        none →
      retrieve ⟨[("t", ⟨"e", 0, 0, true⟩)], [("e", ["t"])], 10, 5⟩ "t" 3 =
        (Except.error "Token not found",
          ⟨[("t", ⟨"e", 0, 0, true⟩)], [("e", ["t"])], 10, 5⟩)) ∧
    (∀ st, mapGet (⟨[("t", ⟨"e", 0, 0, true⟩)], [("e", ["t"])], 10, 5⟩ : TokenStore).tokens "t" =
        some st → st.isValid = false →
      retrieve ⟨[("t", ⟨"e", 0, 0, true⟩)], [("e", ["t"])], 10, 5⟩ "t" 3 =
        (Except.error "Token is invalid",
          ⟨[("t", ⟨"e", 0, 0, true⟩)], [("e", ["t"])], 10, 5⟩)) ∧
    (∀ st, mapGet (⟨[("t", ⟨"e", 0, 0, true⟩)], [("e", ["t"])], 10, 5⟩ : TokenStore).tokens "t" =
        some st → st.isValid = true →
      (⟨[("t", ⟨"e", 0, 0, true⟩)], [("e", ["t"])], 10, 5⟩ : TokenStore).tokenTTL <
        3 - st.createdAt →
      (retrieve ⟨[("t", ⟨"e", 0, 0, true⟩)], [("e", ["t"])], 10, 5⟩ "t" 3).1 =
        Except.error "Token has expired" ∧
      mapGet (retrieve ⟨[("t", ⟨"e", 0, 0, true⟩)], [("e", ["t"])], 10, 5⟩ "t" 3).2.tokens "t" =
        some { st with isValid := false }) ∧
    (∀ st, mapGet (⟨[("t", ⟨"e", 0, 0, true⟩)], [("e", ["t"])], 10, 5⟩ : TokenStore).tokens "t" =
        some st → st.isValid = true →
      3 - st.createdAt ≤ (⟨[("t", ⟨"e", 0, 0, true⟩)], [("e", ["t"])], 10, 5⟩ : TokenStore).tokenTTL →
      retrieve ⟨[("t", ⟨"e", 0, 0, true⟩)], [("e", ["t"])], 10, 5⟩ "t" 3 =
        (Except.ok { st with lastUsed := 3 },
          { (⟨[("t", ⟨"e", 0, 0, true⟩)], [("e", ["t"])], 10, 5⟩ : TokenStore) with
            tokens := mapSet (⟨[("t", ⟨"e", 0, 0, true⟩)], [("e", ["t"])], 10, 5⟩ :
              TokenStore).tokens "t" { st with lastUsed := 3 } })) ∧
    ((∃ st, (retrieve ⟨[("t", ⟨"e", 0, 0, true⟩)], [("e", ["t"])], 10, 5⟩ "t" 3).1 =
        Except.ok st) ↔
      ∃ st, mapGet (⟨[("t", ⟨"e", 0, 0, true⟩)], [("e", ["t"])], 10, 5⟩ :
          TokenStore).tokens "t" = some st ∧ st.isValid = true ∧
        3 - st.createdAt ≤ (⟨[("t", ⟨"e", 0, 0, true⟩)], [("e", ["t"])], 10, 5⟩ :
          TokenStore).tokenTTL) :=
  retrieve_error_kinds ⟨[("t", ⟨"e", 0, 0, true⟩)], [("e", ["t"])], 10, 5⟩ "t" 3

/-- C5 (counterexample): at age exactly equal to the TTL the code still
succeeds (isExpired uses a strict comparison), so the claimed usability
condition "now - createdAt strictly less than TTL" is wrong at the
boundary: here now - createdAt = TTL = 10, retrieve succeeds, yet
now - createdAt < TTL is false. -/
theorem retrieve_ttl_boundary_counterexample :
    (retrieve ⟨[("t", ⟨"e", 0, 0, true⟩)], [("e", ["t"])], 10, 5⟩ "t" 10).1 =
      Except.ok ⟨"e", 0, 10, true⟩ ∧ ¬ ((10 : Int) - 0 < 10) := by
  constructor
  · rfl
  · decide

/-- C10: for a stored, still-valid token whose age strictly exceeds the
TTL, the first retrieve reports "Token has expired" and flips the record to
invalid while leaving it in the store; every subsequent retrieve of the
same token, at any time, reports "Token is invalid" and leaves the state
unchanged, because the validity flag is checked before the expiry
computation.  The expired outcome is therefore observable at most once per
token. -/
theorem expired_then_invalid (ts : TokenStore) (token : String) (st : StoredToken) (now : Int)
    (hst : mapGet ts.tokens token = some st) (hval : st.isValid = true)
    (hexp : ts.tokenTTL < now - st.createdAt) :
    (retrieve ts token now).1 = Except.error "Token has expired" ∧
    mapGet (retrieve ts token now).2.tokens token = some { st with isValid := false } ∧
    ∀ now2 : Int, retrieve (retrieve ts token now).2 token now2 =
      (Except.error "Token is invalid", (retrieve ts token now).2) := by
  have hex : isExpired ts st now = true := by
    simp only [isExpired, decide_eq_true_eq]
    omega
  have hmget : mapGet (retrieve ts token now).2.tokens token =
      some { st with isValid := false } := by
    simp only [retrieve, hst]
    rw [if_neg (show ¬ ((!st.isValid) = true) from by simp [hval]), if_pos hex]
    simp only [revoke, hst]
    rw [mapGet_mapSet, if_pos rfl]
  refine ⟨?_, hmget, ?_⟩
  · simp only [retrieve, hst]
    rw [if_neg (show ¬ ((!st.isValid) = true) from by simp [hval]), if_pos hex]
  · intro now2
    exact retrieve_of_invalid (retrieve ts token now).2 token now2
      { st with isValid := false } hmget rfl

/-- C10 (witness): the expired-then-invalid behaviour at a concrete store
with TTL 10, token created at 0 and retrieved at time 11. -/
theorem expired_then_invalid_witness :
    (retrieve ⟨[("t", ⟨"e", 0, 0, true⟩)], [("e", ["t"])], 10, 5⟩ "t" 11).1 =
      Except.error "Token has expired" ∧
    mapGet (retrieve ⟨[("t", ⟨"e", 0, 0, true⟩)], [("e", ["t"])], 10, 5⟩ "t" 11).2.tokens "t" =
      some { (⟨"e", 0, 0, true⟩ : StoredToken) with isValid := false } ∧
    ∀ now2 : Int,
      retrieve (retrieve ⟨[("t", ⟨"e", 0, 0, true⟩)], [("e", ["t"])], 10, 5⟩ "t" 11).2 "t" now2 =
        (Except.error "Token is invalid",
          (retrieve ⟨[("t", ⟨"e", 0, 0, true⟩)], [("e", ["t"])], 10, 5⟩ "t" 11).2) :=
  expired_then_invalid ⟨[("t", ⟨"e", 0, 0, true⟩)], [("e", ["t"])], 10, 5⟩ "t"
    ⟨"e", 0, 0, true⟩ 11 (by decide) (by decide) (by decide)

end Auth

namespace RL

theorem foldl_oldest_mem_le :
    ∀ (rest : List UsageRecord) (first : UsageRecord),
      (rest.foldl (fun oldest record =>
        if record.timestamp < oldest.timestamp then record else oldest) first) ∈
          first :: rest ∧
      ∀ r ∈ first :: rest,
        (rest.foldl (fun oldest record =>
          if record.timestamp < oldest.timestamp then record else oldest) first).timestamp ≤
          r.timestamp := by
  intro rest
  induction rest with
  | nil =>
    intro first
    refine ⟨List.mem_cons_self _ _, ?_⟩
    intro r hr
    rcases List.mem_cons.mp hr with h | h
    · subst h
      exact le_refl _
    · simp at h
  | cons r2 rest2 ih =>
    intro first
    simp only [List.foldl_cons]
    by_cases hlt : r2.timestamp < first.timestamp
    · rw [if_pos hlt]
      obtain ⟨hmem, hle⟩ := ih r2
      constructor
      · rcases List.mem_cons.mp hmem with h | h
        · rw [h]
          exact List.mem_cons_of_mem _ (List.mem_cons_self _ _)
        · exact List.mem_cons_of_mem _ (List.mem_cons_of_mem _ h)
      · intro r hr
        rcases List.mem_cons.mp hr with h | h
        · subst h
          exact le_trans (hle r2 (List.mem_cons_self _ _)) (le_of_lt hlt)
        · exact hle r h
    · rw [if_neg hlt]
      obtain ⟨hmem, hle⟩ := ih first
      constructor
      · rcases List.mem_cons.mp hmem with h | h
        · rw [h]
          exact List.mem_cons_self _ _
        · exact List.mem_cons_of_mem _ (List.mem_cons_of_mem _ h)
      · intro r hr
        rcases List.mem_cons.mp hr with h | h
        · exact h ▸ hle first (List.mem_cons_self _ _)
        · rcases List.mem_cons.mp h with h2 | h2
          · subst h2
            exact le_trans (hle first (List.mem_cons_self _ _)) (le_of_not_lt hlt)
          · exact hle r (List.mem_cons_of_mem _ h2)

/-- C3: checkLimit computes the current usage as the sum of the word
counts of exactly the samples with timestamp strictly greater than
now - windowSize; it is allowed iff usage + wordCount is at most the daily
limit, with remainingWords = max 0 (limit - usage); resetAt is the oldest
in-window sample's timestamp plus the window size, or now + windowSize
when there is no in-window sample; a not-allowed outcome is a failure
value, not an exception. -/
theorem checkLimit_spec (rl : RateLimiter) (token : String) (wordCount now : Int)
    (hwc : 0 ≤ wordCount) :
    (getValidRecords rl token now =
      ((Auth.mapGet rl.usage token).getD []).filter
        (fun r => decide (now - rl.windowSizeMs < r.timestamp))) ∧
    ((((getValidRecords rl token now).map UsageRecord.wordCount).sum + wordCount ≤
        rl.dailyLimit →
      checkLimit rl token wordCount now = Except.ok
        ⟨true,
          max 0 (rl.dailyLimit -
            ((getValidRecords rl token now).map UsageRecord.wordCount).sum),
          getNextResetTime rl (getValidRecords rl token now) now,
          ((getValidRecords rl token now).map UsageRecord.wordCount).sum⟩)) ∧
    ((rl.dailyLimit <
        ((getValidRecords rl token now).map UsageRecord.wordCount).sum + wordCount →
      checkLimit rl token wordCount now = Except.error
        (RLErr.exceeded rl.dailyLimit
          (((getValidRecords rl token now).map UsageRecord.wordCount).sum) wordCount
          (getNextResetTime rl (getValidRecords rl token now) now)))) ∧
    (getValidRecords rl token now = [] →
      getNextResetTime rl (getValidRecords rl token now) now = now + rl.windowSizeMs) ∧
    (getValidRecords rl token now ≠ [] →
      ∃ r ∈ getValidRecords rl token now,
        getNextResetTime rl (getValidRecords rl token now) now =
          r.timestamp + rl.windowSizeMs ∧
        ∀ r2 ∈ getValidRecords rl token now, r.timestamp ≤ r2.timestamp) := by
  refine ⟨rfl, ?_, ?_, ?_, ?_⟩
  · intro hle
    have hdec : decide
        ((((getValidRecords rl token now).map UsageRecord.wordCount).sum + wordCount ≤
          rl.dailyLimit)) = true := decide_eq_true hle
    simp only [checkLimit, hdec, Bool.not_true, Bool.false_eq_true, if_false]
  · intro hgt
    have hdec : decide
        ((((getValidRecords rl token now).map UsageRecord.wordCount).sum + wordCount ≤
          rl.dailyLimit)) = false := decide_eq_false (not_le.mpr hgt)
    simp only [checkLimit, hdec, Bool.not_false, if_true]
  · intro hnil
    rw [hnil]
    rfl
  · intro hne
    rcases hrec : getValidRecords rl token now with _ | ⟨first, rest⟩
    · exact absurd hrec hne
    · obtain ⟨hmem, hle⟩ := foldl_oldest_mem_le rest first
      exact ⟨_, hmem, rfl, hle⟩

/-- C3 (witness): the checkLimit case analysis at the sample limiter with
a 2-word request at time 50. -/
theorem checkLimit_spec_witness :
    (getValidRecords sampleLimiter "t" 50 =
      ((Auth.mapGet sampleLimiter.usage "t").getD []).filter
        (fun r => decide (50 - sampleLimiter.windowSizeMs < r.timestamp))) ∧
    ((((getValidRecords sampleLimiter "t" 50).map UsageRecord.wordCount).sum + 2 ≤
        sampleLimiter.dailyLimit →
      checkLimit sampleLimiter "t" 2 50 = Except.ok
        ⟨true,
          max 0 (sampleLimiter.dailyLimit -
            ((getValidRecords sampleLimiter "t" 50).map UsageRecord.wordCount).sum),
          getNextResetTime sampleLimiter (getValidRecords sampleLimiter "t" 50) 50,
          ((getValidRecords sampleLimiter "t" 50).map UsageRecord.wordCount).sum⟩)) ∧
    ((sampleLimiter.dailyLimit <
        ((getValidRecords sampleLimiter "t" 50).map UsageRecord.wordCount).sum + 2 →
      checkLimit sampleLimiter "t" 2 50 = Except.error
        (RLErr.exceeded sampleLimiter.dailyLimit
          (((getValidRecords sampleLimiter "t" 50).map UsageRecord.wordCount).sum) 2
          (getNextResetTime sampleLimiter (getValidRecords sampleLimiter "t" 50) 50)))) ∧
    (getValidRecords sampleLimiter "t" 50 = [] →
      getNextResetTime sampleLimiter (getValidRecords sampleLimiter "t" 50) 50 =
        50 + sampleLimiter.windowSizeMs) ∧
    (getValidRecords sampleLimiter "t" 50 ≠ [] →
      ∃ r ∈ getValidRecords sampleLimiter "t" 50,
        getNextResetTime sampleLimiter (getValidRecords sampleLimiter "t" 50) 50 =
          r.timestamp + sampleLimiter.windowSizeMs ∧
        ∀ r2 ∈ getValidRecords sampleLimiter "t" 50, r.timestamp ≤ r2.timestamp) :=
  checkLimit_spec sampleLimiter "t" 2 50 (by decide)

/-- C4: when the embedded limit check is not allowed, consumeWords returns
the failure from checkLimit and leaves the token's usage state exactly as
it was; when it is allowed, exactly one sample of wordCount words stamped
now is appended and the returned result is the limit check recomputed, with
word count 0, on the post-recording state. -/
theorem consumeWords_spec (rl : RateLimiter) (token : String) (wordCount now : Int) :
    (rl.dailyLimit <
        ((getValidRecords rl token now).map UsageRecord.wordCount).sum + wordCount →
      consumeWords rl token wordCount now =
        (Except.error (RLErr.exceeded rl.dailyLimit
          (((getValidRecords rl token now).map UsageRecord.wordCount).sum) wordCount
          (getNextResetTime rl (getValidRecords rl token now) now)), rl)) ∧
    ((((getValidRecords rl token now).map UsageRecord.wordCount).sum + wordCount ≤
        rl.dailyLimit →
      (consumeWords rl token wordCount now).2 =
        { rl with usage := (Auth.mapSet rl.usage token
            (((Auth.mapGet rl.usage token).getD []) ++
              [⟨wordCount, now, now + rl.windowSizeMs⟩])) } ∧
      (consumeWords rl token wordCount now).1 =
        checkLimit
          { rl with usage := (Auth.mapSet rl.usage token
              (((Auth.mapGet rl.usage token).getD []) ++
                [⟨wordCount, now, now + rl.windowSizeMs⟩])) } token 0 now)) := by
  constructor
  · intro hgt
    have hdec : decide
        ((((getValidRecords rl token now).map UsageRecord.wordCount).sum + wordCount ≤
          rl.dailyLimit)) = false := decide_eq_false (not_le.mpr hgt)
    have hchk : checkLimit rl token wordCount now = Except.error
        (RLErr.exceeded rl.dailyLimit
          (((getValidRecords rl token now).map UsageRecord.wordCount).sum) wordCount
          (getNextResetTime rl (getValidRecords rl token now) now)) := by
      simp only [checkLimit, hdec, Bool.not_false, if_true]
    simp only [consumeWords, hchk]
  · intro hle
    have hdec : decide
        ((((getValidRecords rl token now).map UsageRecord.wordCount).sum + wordCount ≤
          rl.dailyLimit)) = true := decide_eq_true hle
    have hchk : checkLimit rl token wordCount now = Except.ok
        ⟨true,
          max 0 (rl.dailyLimit -
            ((getValidRecords rl token now).map UsageRecord.wordCount).sum),
          getNextResetTime rl (getValidRecords rl token now) now,
          ((getValidRecords rl token now).map UsageRecord.wordCount).sum⟩ := by
      simp only [checkLimit, hdec, Bool.not_true, Bool.false_eq_true, if_false]
    simp only [consumeWords, hchk, recordUsage, Bool.not_true, Bool.false_eq_true, if_false]
    rcases hupd : checkLimit
        { rl with usage := (Auth.mapSet rl.usage token
            (((Auth.mapGet rl.usage token).getD []) ++
              [⟨wordCount, now, now + rl.windowSizeMs⟩])) } token 0 now with e | res
    · exact ⟨rfl, rfl⟩
    · exact ⟨rfl, rfl⟩

/-- C4 (witness): the consumeWords case analysis at the sample limiter
with a 2-word request at time 50. -/
theorem consumeWords_spec_witness :
    (sampleLimiter.dailyLimit <
        ((getValidRecords sampleLimiter "t" 50).map UsageRecord.wordCount).sum + 2 →
      consumeWords sampleLimiter "t" 2 50 =
        (Except.error (RLErr.exceeded sampleLimiter.dailyLimit
          (((getValidRecords sampleLimiter "t" 50).map UsageRecord.wordCount).sum) 2
          (getNextResetTime sampleLimiter (getValidRecords sampleLimiter "t" 50) 50)),
          sampleLimiter)) ∧
    ((((getValidRecords sampleLimiter "t" 50).map UsageRecord.wordCount).sum + 2 ≤
        sampleLimiter.dailyLimit →
      (consumeWords sampleLimiter "t" 2 50).2 =
        { sampleLimiter with usage := (Auth.mapSet sampleLimiter.usage "t"
            (((Auth.mapGet sampleLimiter.usage "t").getD []) ++
              [⟨2, 50, 50 + sampleLimiter.windowSizeMs⟩])) } ∧
      (consumeWords sampleLimiter "t" 2 50).1 =
        checkLimit
          { sampleLimiter with usage := (Auth.mapSet sampleLimiter.usage "t"
              (((Auth.mapGet sampleLimiter.usage "t").getD []) ++
                [⟨2, 50, 50 + sampleLimiter.windowSizeMs⟩])) } "t" 0 50)) :=
  consumeWords_spec sampleLimiter "t" 2 50

end RL
